import Mathlib

/-! Kodovers: a verification development for `src/main.js`.

The page script is a collection of small event-driven widgets.  Each widget is
embedded as a state type together with one function per handler, and the
browser's timer table is part of the state wherever a handler schedules or
cancels a timer.

Conventions of the embedding:

* a JavaScript string is the list of its UTF-16 code units (`split("")`,
  `s[i]` and `length` all work on code units);
* JavaScript numbers are exact rationals: rounding of IEEE doubles is not
  modelled;
* `Math.random()` is a value of the half-open unit interval.
-/

namespace Kodovers

/-! ## Strings and random draws -/

/-- A JavaScript string: the list of its UTF-16 code units. -/
abbrev JSString := List Nat

/-- A result of `Math.random()`: a number `r` with `0 ≤ r < 1`. -/
def Draw := { r : ℚ // 0 ≤ r ∧ r < 1 }

/-- The draw `0`. -/
def Draw.zero : Draw := ⟨0, le_refl 0, by norm_num⟩

/-- The string indexing `s[i]`: a one-unit string, or `undefined` (here `none`)
when `i` is out of range. -/
def charAt (s : JSString) (i : Nat) : Option Nat := s[i]?

/-- The method `Array.prototype.join("")` on an array whose elements are one-unit
strings or `undefined`; `undefined` contributes the empty string. -/
def join (pieces : List (Option Nat)) : JSString :=
  (pieces.map Option.toList).flatten

/-! ## ScrambleText (`src/main.js`, lines 99-131) -/

/-- The field `this.chars`, the replacement alphabet, as code units:
`!<>-_\/[]` and the two braces, then the three units U+00E2, U+20AC, U+201D,
then `=+*^?#` and eight underscores. -/
def chars : JSString :=
  [33, 60, 62, 45, 95, 92, 47, 91, 93, 123, 125, 226, 8364, 8221,
   61, 43, 42, 94, 63, 35, 95, 95, 95, 95, 95, 95, 95, 95]

/-- The expression `Math.floor(Math.random() * this.chars.length)`. -/
def randomIndex (r : Draw) : Nat :=
  (Int.floor (r.val * (chars.length : ℚ))).toNat

/-- An entry of the browser's table of active intervals: the handle returned by
`setInterval` and the current value of the variable `i` captured by the
callback. -/
structure Timer where
  id : Nat
  i : Nat
deriving DecidableEq, Repr

/-- The widget together with the part of the browser it talks to. -/
structure Widget where
  /-- The field `this.originalText`. -/
  originalText : JSString
  /-- The property `this.el.textContent`. -/
  textContent : JSString
  /-- The field `this.scrambleInterval`: `null` or a timer handle. -/
  scrambleInterval : Option Nat
  /-- The active intervals. -/
  intervals : List Timer
  /-- The handle the next `setInterval` returns; handles are positive and
  never handed out twice. -/
  nextId : Nat
deriving DecidableEq, Repr

/-- The constructor: captures `el.textContent`, no interval yet. -/
def ScrambleText.constructor (elText : JSString) : Widget :=
  { originalText := elText
    textContent := elText
    scrambleInterval := none
    intervals := []
    nextId := 1 }

/-- The call `clearInterval(h)`: removes the interval with handle `h`;
`clearInterval(null)` and a stale handle do nothing. -/
def clearInterval (h : Option Nat) (tbl : List Timer) : List Timer :=
  match h with
  | none => tbl
  | some k => tbl.filter (fun t => t.id != k)

/-- Truthiness of `this.scrambleInterval`: `null` and `0` are falsy. -/
def truthy : Option Nat → Bool
  | none => false
  | some k => k != 0

/-- The method `scramble()`: cancel the held interval when the field is truthy,
then start a new interval whose captured `i` is `0`. -/
def scramble (w : Widget) : Widget :=
  let tbl := if truthy w.scrambleInterval then
      clearInterval w.scrambleInterval w.intervals else w.intervals
  { w with
    scrambleInterval := some w.nextId
    intervals := tbl ++ [{ id := w.nextId, i := 0 }]
    nextId := w.nextId + 1 }

/-- The method `reset()`. -/
def reset (w : Widget) : Widget :=
  { w with
    intervals := clearInterval w.scrambleInterval w.intervals
    textContent := w.originalText }

/-- The text written at the start of a tick: position `index` keeps the original
unit when `index < i`, and takes a random unit of `this.chars` otherwise.
`rnd index` is the draw `Math.random()` made for position `index`. -/
def scrambledText (orig : JSString) (i : Nat) (rnd : Nat → Draw) : JSString :=
  join (orig.mapIdx fun index _char =>
    if index < i then charAt orig index else charAt chars (randomIndex (rnd index)))

/-- The body of the interval callback, run with the captured variable at `i`;
the incremented `i` is stored back by `fire`. -/
def tickBody (w : Widget) (i : Nat) (rnd : Nat → Draw) : Widget :=
  let w1 := { w with textContent := scrambledText w.originalText i rnd }
  if i ≥ w1.originalText.length then
    { w1 with
      intervals := clearInterval w1.scrambleInterval w1.intervals
      textContent := w1.originalText }
  else w1

/-- The browser fires the interval with handle `h`: nothing happens when no such
interval is active; otherwise the callback runs and its `i` is incremented. -/
def fire (h : Nat) (rnd : Nat → Draw) (w : Widget) : Widget :=
  match w.intervals.find? (fun t => t.id == h) with
  | none => w
  | some t =>
    let w2 := tickBody w t.i rnd
    { w2 with
      intervals := w2.intervals.map fun u =>
        if u.id == h then { u with i := t.i + 1 } else u }

/-- What can happen to the widget: the two hover handlers and interval ticks. -/
inductive Event where
  | scramble : Event
  | reset : Event
  | tick (h : Nat) (rnd : Nat → Draw) : Event

/-- One event. -/
def step (w : Widget) : Event → Widget
  | .scramble => scramble w
  | .reset => reset w
  | .tick h rnd => fire h rnd w

/-- A sequence of events, oldest first. -/
def run (w : Widget) (es : List Event) : Widget :=
  es.foldl step w

/-- The first `k` ticks of the interval with handle `h`; the tick number `j + 1`
uses the draws `rnds j`. -/
def ticks (h : Nat) (rnds : Nat → Nat → Draw) : Nat → Widget → Widget
  | 0, w => w
  | k + 1, w => fire h (rnds k) (ticks h rnds k w)

/-- The handler `scramble()` followed by the first `k` ticks of the interval it
started. -/
def scrambleThenTicks (w : Widget) (rnds : Nat → Nat → Draw) (k : Nat) : Widget :=
  ticks w.nextId rnds k (scramble w)

/-- A list of later ticks, each with its handle and its draws, as events. -/
def tickEvents (ts : List (Nat × (Nat → Draw))) : List Event :=
  ts.map fun t => Event.tick t.1 t.2

/-! ### ScrambleText: invariant and auxiliary notions -/

/-- What every reachable state satisfies. -/
structure Inv (el : JSString) (w : Widget) : Prop where
  orig : w.originalText = el
  pos : 1 ≤ w.nextId
  held : ∀ h, w.scrambleInterval = some h → 0 < h ∧ h < w.nextId
  owner : ∀ t ∈ w.intervals, w.scrambleInterval = some t.id
  atMostOne : w.intervals.length ≤ 1

/-- The unit written at position `index` during a tick with captured `i`. -/
def tickUnit (i : Nat) (rnd : Nat → Draw) (index : Nat) (c : Nat) : Nat :=
  if index < i then c else chars.getD (randomIndex (rnd index)) 0

/-- The text on the page after `k` ticks of a reveal of `el` that started while
the page showed `before`. -/
def textAfter (el before : JSString) (rnds : Nat → Nat → Draw) : Nat → JSString
  | 0 => before
  | k + 1 => scrambledText el k (rnds k)

/-! ## DOM helpers -/

/-- The method `classList.toggle(name, force)` on a class list: with `force` true
the class is added unless present, with `force` false it is removed. -/
def classListToggle (cl : List String) (name : String) (force : Bool) : List String :=
  if force then (if name ∈ cl then cl else cl ++ [name]) else cl.filter (fun c => c != name)

/-- The string an attribute gets when `setAttribute` is given a boolean. -/
def boolAttr : Bool → String
  | true => "true"
  | false => "false"

/-! ## Menu toggle (`src/main.js`, lines 439-463) -/

/-- The closure variable `isOpen` and the parts of the document `toggleMenu`
writes. -/
structure Menu where
  isOpen : Bool
  /-- The class list of `document.body`. -/
  bodyClasses : List String
  /-- The class list of the `.menu-toggle` element. -/
  menuToggleClasses : List String
  /-- The class list of the `.site-nav` element. -/
  siteNavClasses : List String
  /-- The attribute `aria-expanded` of the `.menu-toggle` element, `none` when
  the element does not have it. -/
  ariaExpanded : Option String
deriving DecidableEq, Repr

/-- The state right after `setupMenu`: `let isOpen = false` over the document as
the markup gives it. -/
def setupMenu (body menuToggle siteNav : List String) (aria : Option String) : Menu :=
  { isOpen := false, bodyClasses := body, menuToggleClasses := menuToggle,
    siteNavClasses := siteNav, ariaExpanded := aria }

/-- The function `toggleMenu`. -/
def toggleMenu (m : Menu) : Menu :=
  let isOpen := !m.isOpen
  { isOpen := isOpen
    bodyClasses := classListToggle m.bodyClasses "no-scroll" isOpen
    menuToggleClasses := classListToggle m.menuToggleClasses "active" isOpen
    siteNavClasses := classListToggle m.siteNavClasses "active" isOpen
    ariaExpanded := some (boolAttr isOpen) }

/-- The markup shows a closed menu: none of the three classes is set and
`aria-expanded` is `false`. -/
def ClosedMarkup (body menuToggle siteNav : List String) (aria : Option String) : Prop :=
  "no-scroll" ∉ body ∧ "active" ∉ menuToggle ∧ "active" ∉ siteNav ∧ aria = some "false"

/-- The three classes and the attribute agree with `isOpen`. -/
def Menu.Consistent (m : Menu) : Prop :=
  ("no-scroll" ∈ m.bodyClasses ↔ m.isOpen = true) ∧
  ("active" ∈ m.menuToggleClasses ↔ m.isOpen = true) ∧
  ("active" ∈ m.siteNavClasses ↔ m.isOpen = true) ∧
  m.ariaExpanded = some (boolAttr m.isOpen)

instance (body menuToggle siteNav : List String) (aria : Option String) :
    Decidable (ClosedMarkup body menuToggle siteNav aria) := by
  unfold ClosedMarkup; infer_instance

instance (m : Menu) : Decidable m.Consistent := by
  unfold Menu.Consistent; infer_instance

/-! ## Sound toggle (`src/main.js`, lines 501-516) -/

/-- The parts of the document the click handler of `#sound-toggle` reads and
writes. -/
structure Sound where
  /-- The property `audio.muted`. -/
  muted : Bool
  /-- The class list of the button. -/
  btnClasses : List String
  /-- The attribute `aria-pressed` of the button, `none` when absent. -/
  ariaPressed : Option String
deriving DecidableEq, Repr

/-- The click handler of the sound toggle. -/
def soundClick (s : Sound) : Sound :=
  let isMuted := s.muted
  { muted := !isMuted
    btnClasses := classListToggle s.btnClasses "is-muted" (!isMuted)
    ariaPressed := some (boolAttr isMuted) }

/-! ## throttle (`src/main.js`, lines 8-20) -/

/-- The closure of one `throttle(func, limit)`: the variable `inThrottle`
(`undefined`, which is falsy, is `false`) and the number of pending timeouts
`() => (inThrottle = false)`. -/
structure Throttle where
  inThrottle : Bool
  pending : Nat
deriving DecidableEq, Repr

/-- The closure right after `throttle(func, limit)` returned. -/
def Throttle.init : Throttle := { inThrottle := false, pending := 0 }

/-- A call of the returned wrapper with its arguments, or the expiry of one of
its timeouts. -/
inductive ThrottleEvent (α : Type) where
  | call (args : α) : ThrottleEvent α
  | expire : ThrottleEvent α

/-- One event: the new closure, and `some args` when `func` was applied to
`args` during the event.  An expiry needs a pending timeout. -/
def throttleStep {α : Type} (s : Throttle) : ThrottleEvent α → Throttle × Option α
  | .call args =>
    if !s.inThrottle then
      ({ inThrottle := true, pending := s.pending + 1 }, some args)
    else (s, none)
  | .expire =>
    if s.pending = 0 then (s, none)
    else ({ inThrottle := false, pending := s.pending - 1 }, none)

/-- A sequence of events, oldest first: the final closure and, event by event,
what `func` was applied to. -/
def throttleRun {α : Type} (s : Throttle) : List (ThrottleEvent α) → Throttle × List (Option α)
  | [] => (s, [])
  | e :: es =>
    ((throttleRun (throttleStep s e).1 es).1,
      (throttleStep s e).2 :: (throttleRun (throttleStep s e).1 es).2)

/-- Read off the log of events and invocations: has `func` been invoked since the
last expiry (since the start when there was none)?  `b` is the answer before the
log. -/
def invokedSinceExpiry {α : Type} (b : Bool) : List (ThrottleEvent α × Option α) → Bool
  | [] => b
  | (.expire, _) :: log => invokedSinceExpiry false log
  | (.call _, some _) :: log => invokedSinceExpiry true log
  | (.call _, none) :: log => invokedSinceExpiry b log

/-- The event is an expiry. -/
def ThrottleEvent.isExpire {α : Type} : ThrottleEvent α → Bool
  | .expire => true
  | .call _ => false

/-- The number of invocations in a list of outputs. -/
def invocations {α : Type} (outs : List (Option α)) : Nat :=
  (outs.filter Option.isSome).length

/-- A timeout is pending exactly while `inThrottle` is true. -/
def Throttle.Ok (s : Throttle) : Prop :=
  s.pending = if s.inThrottle then 1 else 0

instance (s : Throttle) : Decidable s.Ok := by
  unfold Throttle.Ok; infer_instance

/-! ## Pointer normalisation (`src/main.js`, lines 319-325) -/

/-- The fields the `mousemove` handler writes: `this.mouse` and
`this.normalizedMouse`. -/
structure Pointer where
  mouseX : ℚ
  mouseY : ℚ
  normalizedX : ℚ
  normalizedY : ℚ
deriving DecidableEq, Repr

/-- The `mousemove` handler, given the event's `clientX`, `clientY` and the
window's `innerWidth`, `innerHeight`.  Forwarding the event to the cursor
widget writes none of these fields and is left out. -/
def onMouseMove (clientX clientY innerWidth innerHeight : ℚ) : Pointer :=
  { mouseX := clientX
    mouseY := clientY
    normalizedX := (clientX / innerWidth) * 2 - 1
    normalizedY := -(clientY / innerHeight) * 2 + 1 }

/-! ## Mouse smoothing in the render loop (`src/main.js`, lines 535-546) -/

/-- A two-component vector. -/
structure Vector2 where
  x : ℚ
  y : ℚ
deriving DecidableEq, Repr

/-- Modelled from the spec: `Vector2.lerp(v, alpha)` of the rendering library is
not under `src/`; it advances the vector the fraction `alpha` of the remaining
distance toward `v`, component by component. -/
def Vector2.lerp (u v : Vector2) (alpha : ℚ) : Vector2 :=
  { x := u.x + (v.x - u.x) * alpha
    y := u.y + (v.y - u.y) * alpha }

/-- The numbers `animate` writes: the uniforms `uTime` and `uMouse` and the two
rotation angles of `coreGroup`. -/
structure Frame where
  uTime : ℚ
  uMouse : Vector2
  rotationX : ℚ
  rotationY : ℚ
deriving DecidableEq, Repr

/-- One call of `animate` with `this.normalizedMouse` at `normalizedMouse` and the
clock at `elapsedTime`.  Scheduling the next frame and the draw call write none
of these numbers and are left out. -/
def animate (normalizedMouse : Vector2) (elapsedTime : ℚ) (f : Frame) : Frame :=
  { uTime := elapsedTime
    uMouse := f.uMouse.lerp normalizedMouse 0.05
    rotationY := f.rotationY + 0.0005
    rotationX := f.rotationX + 0.0005 }

/-- Consecutive frames with no `mousemove` in between; one clock reading a
frame. -/
def frames (normalizedMouse : Vector2) (f : Frame) : List ℚ → Frame
  | [] => f
  | elapsedTime :: rest => frames normalizedMouse (animate normalizedMouse elapsedTime f) rest

/-! ## Instanced-dot expansion (`src/main.js`, lines 210-218 and 366-381)
The numbers are the elements of a linearly ordered field `K`, and `Math.sqrt` is
a parameter `sqrt : K → K`; what is proved about lengths holds wherever `sqrt`
is exact. -/

/-- A three-component vector. -/
structure Vector3 (K : Type) where
  x : K
  y : K
  z : K
deriving DecidableEq, Repr

/-- The squared length `x*x + y*y + z*z`. -/
def Vector3.lengthSq {K : Type} [LinearOrderedField K] (v : Vector3 K) : K :=
  v.x * v.x + v.y * v.y + v.z * v.z

/-- Modelled from the spec: `Vector3.length()` of the rendering library is not
under `src/`; it is the square root of the squared length. -/
def Vector3.length {K : Type} [LinearOrderedField K] (sqrt : K → K) (v : Vector3 K) : K :=
  sqrt v.lengthSq

/-- Modelled from the spec: `Vector3.multiplyScalar(s)` of the rendering library
is not under `src/`; it scales each component by `s`. -/
def Vector3.multiplyScalar {K : Type} [LinearOrderedField K] (v : Vector3 K) (s : K) :
    Vector3 K :=
  { x := v.x * s, y := v.y * s, z := v.z * s }

/-- Modelled from the spec: `Vector3.divideScalar(s)` of the rendering library is
not under `src/`; it is `multiplyScalar(1 / s)`. -/
def Vector3.divideScalar {K : Type} [LinearOrderedField K] (v : Vector3 K) (s : K) :
    Vector3 K :=
  v.multiplyScalar (1 / s)

/-- Modelled from the spec: `Vector3.normalize()` of the rendering library is
not under `src/`; it gives the direction of the vector, dividing by
`length() || 1`, so the zero vector stays as it is. -/
def Vector3.normalize {K : Type} [LinearOrderedField K] (sqrt : K → K) (v : Vector3 K) :
    Vector3 K :=
  v.divideScalar (if v.length sqrt = 0 then 1 else v.length sqrt)

/-- Modelled from the spec: `Vector3.add(w)` of the rendering library is not
under `src/`; it adds component by component. -/
def Vector3.add {K : Type} [LinearOrderedField K] (v w : Vector3 K) : Vector3 K :=
  { x := v.x + w.x, y := v.y + w.y, z := v.z + w.z }

/-- The difference of two vectors, used to state displacements. -/
def Vector3.sub {K : Type} [LinearOrderedField K] (v w : Vector3 K) : Vector3 K :=
  { x := v.x - w.x, y := v.y - w.y, z := v.z - w.z }

/-- The constant `maxExpansion = 1.5`. -/
def maxExpansion (K : Type) [LinearOrderedField K] : K := 3 / 2

/-- The cached rest positions and the translation of each instance matrix (the
matrix `dummy.matrix` has no rotation and unit scale, so it is its translation),
with the flag `instanceMatrix.needsUpdate`. -/
structure Dots (K : Type) where
  initialDotPositions : List (Vector3 K)
  instancePositions : List (Vector3 K)
  needsUpdate : Bool
deriving DecidableEq, Repr

/-- The part of `_createCore` that makes the dots: one instance a vertex, and the
rest positions copied from the geometry. -/
def createCore {K : Type} [LinearOrderedField K] (positions : List (Vector3 K)) : Dots K :=
  { initialDotPositions := positions
    instancePositions := List.replicate positions.length { x := 0, y := 0, z := 0 }
    needsUpdate := false }

/-- The position `newPos` computed for one rest position `pos`:
`pos.clone().add(pos.clone().normalize().multiplyScalar(p * maxExpansion))`. -/
def newPos {K : Type} [LinearOrderedField K] (sqrt : K → K) (pos : Vector3 K) (p : K) :
    Vector3 K :=
  let direction := pos.normalize sqrt
  pos.add (direction.multiplyScalar (p * maxExpansion K))

/-- The function `updateDotPositions(p)`: for each rest position in turn,
`setMatrixAt(i, ...)` writes the new position into instance `i`; the rest
positions are only read (each use is a `clone()`). -/
def updateDotPositions {K : Type} [LinearOrderedField K] (sqrt : K → K) (d : Dots K) (p : K) :
    Dots K :=
  { initialDotPositions := d.initialDotPositions
    instancePositions := d.initialDotPositions.enum.foldl
      (fun m ip => m.set ip.1 (newPos sqrt ip.2 p)) d.instancePositions
    needsUpdate := true }

/-- A square root that is exact at `25`, for evaluating the model on the rest
position `(3, 4, 0)`. -/
def sqrtAt25 (x : ℚ) : ℚ := if x = 25 then 5 else 0

/-! # Theorems -/

/-! ## ScrambleText -/

/-! ### Lemmas on the scrambled text -/

theorem randomIndex_lt (r : Draw) : randomIndex r < chars.length := by
  unfold randomIndex
  have h0 : (0 : ℚ) < (chars.length : ℚ) := by
    have : chars.length = 28 := rfl
    rw [this]; norm_num
  have hlt : r.val * (chars.length : ℚ) < (chars.length : ℚ) := by
    have := mul_lt_mul_of_pos_right r.property.2 h0
    simpa using this
  have hfl : Int.floor (r.val * (chars.length : ℚ)) < (chars.length : ℤ) := by
    rw [Int.floor_lt]
    exact_mod_cast hlt
  have hnn : 0 ≤ Int.floor (r.val * (chars.length : ℚ)) :=
    Int.floor_nonneg.mpr (mul_nonneg r.property.1 h0.le)
  omega

theorem join_map_some (l : List Nat) : join (l.map some) = l := by
  induction l with
  | nil => rfl
  | cons a t ih =>
    simp only [join, List.map_cons, List.flatten_cons] at ih ⊢
    rw [ih]; rfl

theorem scrambledText_eq (orig : JSString) (i : Nat) (rnd : Nat → Draw) :
    scrambledText orig i rnd = orig.mapIdx (tickUnit i rnd) := by
  unfold scrambledText
  have h : (orig.mapIdx fun index _char =>
      if index < i then charAt orig index else charAt chars (randomIndex (rnd index)))
      = (orig.mapIdx (tickUnit i rnd)).map some := by
    apply List.ext_getElem?
    intro j
    simp only [List.getElem?_mapIdx, List.getElem?_map, Option.map_map]
    cases hj : orig[j]? with
    | none => rfl
    | some c =>
      simp only [Option.map_some', Function.comp, tickUnit, charAt]
      by_cases hji : j < i
      · simp [hji, hj]
      · have hlt := randomIndex_lt (rnd j)
        simp [hji, List.getD_eq_getElem?_getD, List.getElem?_eq_getElem hlt]
  rw [h, join_map_some]

theorem scrambledText_length (orig : JSString) (i : Nat) (rnd : Nat → Draw) :
    (scrambledText orig i rnd).length = orig.length := by
  rw [scrambledText_eq, List.length_mapIdx]

theorem scrambledText_getElem? (orig : JSString) (i : Nat) (rnd : Nat → Draw) (j : Nat) :
    (scrambledText orig i rnd)[j]? = (orig[j]?).map (tickUnit i rnd j) := by
  rw [scrambledText_eq, List.getElem?_mapIdx]

theorem tickUnit_mem_chars (i : Nat) (rnd : Nat → Draw) (j c : Nat) (h : i ≤ j) :
    tickUnit i rnd j c ∈ chars := by
  have hlt := randomIndex_lt (rnd j)
  have hji : ¬ j < i := by omega
  simp only [tickUnit, hji, if_false, List.getD_eq_getElem?_getD,
    List.getElem?_eq_getElem hlt, Option.getD_some]
  exact List.getElem_mem hlt

theorem scrambledText_take (orig : JSString) (i : Nat) (rnd : Nat → Draw) :
    (scrambledText orig i rnd).take i = orig.take i := by
  apply List.ext_getElem?
  intro j
  simp only [List.getElem?_take, scrambledText_getElem?]
  by_cases hji : j < i
  · simp only [hji, if_true]
    cases orig[j]? with
    | none => rfl
    | some c => simp [tickUnit, hji]
  · simp [hji]

theorem scrambledText_of_length_le (orig : JSString) (i : Nat) (rnd : Nat → Draw)
    (h : orig.length ≤ i) : scrambledText orig i rnd = orig := by
  have := scrambledText_take orig i rnd
  rw [List.take_of_length_le h,
    List.take_of_length_le (by rw [scrambledText_length]; exact h)] at this
  exact this

/-! ### The invariant is kept by every handler -/

theorem Inv.clear_held {el : JSString} {w : Widget} (hw : Inv el w) :
    clearInterval w.scrambleInterval w.intervals = [] := by
  cases hs : w.scrambleInterval with
  | none =>
    simp only [clearInterval]
    apply List.eq_nil_iff_forall_not_mem.mpr
    intro t ht
    have := hw.owner t ht
    rw [hs] at this; cases this
  | some k =>
    simp only [clearInterval]
    apply List.filter_eq_nil_iff.mpr
    intro t ht
    have := hw.owner t ht
    rw [hs] at this
    injection this with hk
    simp [hk]

theorem Inv.intervals_cases {el : JSString} {w : Widget} (hw : Inv el w) :
    w.intervals = [] ∨ ∃ h i, w.intervals = [{ id := h, i := i }] ∧
      w.scrambleInterval = some h := by
  have hlen := hw.atMostOne
  match hi : w.intervals with
  | [] => exact Or.inl rfl
  | [t] =>
    refine Or.inr ⟨t.id, t.i, rfl, ?_⟩
    exact hw.owner t (by rw [hi]; exact List.mem_singleton.mpr rfl)
  | _ :: _ :: _ => rw [hi] at hlen; simp at hlen

theorem constructor_inv (el : JSString) : Inv el (ScrambleText.constructor el) where
  orig := rfl
  pos := le_refl 1
  held := by intro h hh; cases hh
  owner := by intro t ht; cases ht
  atMostOne := Nat.zero_le 1

theorem scramble_intervals {el : JSString} {w : Widget} (hw : Inv el w) :
    (scramble w).intervals = [{ id := w.nextId, i := 0 }] := by
  unfold scramble
  by_cases ht : truthy w.scrambleInterval = true
  · simp [ht, hw.clear_held]
  · have hnil : w.intervals = [] := by
      rcases hw.intervals_cases with h | ⟨h, i, _, hs⟩
      · exact h
      · exfalso
        have := (hw.held h hs).1
        apply ht
        simp [hs, truthy]; omega
    simp [ht, hnil]

theorem scramble_inv {el : JSString} {w : Widget} (hw : Inv el w) : Inv el (scramble w) where
  orig := hw.orig
  pos := Nat.le_add_left 1 _
  held := by
    intro h hh
    have hp := hw.pos
    simp only [scramble] at hh ⊢
    injection hh with hh
    omega
  owner := by
    intro t ht
    rw [scramble_intervals hw] at ht
    rw [List.mem_singleton.mp ht]
    rfl
  atMostOne := by rw [scramble_intervals hw]; exact le_refl 1

theorem reset_inv {el : JSString} {w : Widget} (hw : Inv el w) : Inv el (reset w) where
  orig := hw.orig
  pos := hw.pos
  held := hw.held
  owner := by
    intro t ht
    simp only [reset, hw.clear_held] at ht
    cases ht
  atMostOne := by simp [reset, hw.clear_held]

/-- A tick of the held interval before the end of the text: the scrambled text is
written and the captured `i` is incremented. -/
theorem fire_running {w : Widget} {h i : Nat} (rnd : Nat → Draw)
    (hi : w.intervals = [{ id := h, i := i }]) (hlt : i < w.originalText.length) :
    fire h rnd w = { w with
      textContent := scrambledText w.originalText i rnd
      intervals := [{ id := h, i := i + 1 }] } := by
  have hn : ¬ i ≥ w.originalText.length := by omega
  simp [fire, hi, tickBody, hn]

/-- A tick of the held interval at the end of the text: the interval is cleared
and the original text is written. -/
theorem fire_last {w : Widget} {h i : Nat} (rnd : Nat → Draw)
    (hi : w.intervals = [{ id := h, i := i }]) (hs : w.scrambleInterval = some h)
    (hge : w.originalText.length ≤ i) :
    fire h rnd w = { w with textContent := w.originalText, intervals := [] } := by
  simp [fire, hi, tickBody, hge, hs, clearInterval]

/-- A tick whose handle is not active changes nothing. -/
theorem fire_idle {w : Widget} (h : Nat) (rnd : Nat → Draw)
    (hi : ∀ t ∈ w.intervals, t.id ≠ h) : fire h rnd w = w := by
  have : w.intervals.find? (fun t => t.id == h) = none := by
    apply List.find?_eq_none.mpr
    intro t ht
    simpa using hi t ht
  simp [fire, this]

theorem fire_inv {el : JSString} {w : Widget} (hw : Inv el w) (h : Nat) (rnd : Nat → Draw) :
    Inv el (fire h rnd w) := by
  rcases hw.intervals_cases with hnil | ⟨k, i, hi, hs⟩
  · rw [fire_idle h rnd (by rw [hnil]; intro t ht; cases ht)]; exact hw
  · by_cases hk : k = h
    · subst hk
      by_cases hlt : i < w.originalText.length
      · rw [fire_running rnd hi hlt]
        refine ⟨hw.orig, hw.pos, hw.held, ?_, le_refl 1⟩
        intro t ht
        rw [List.mem_singleton.mp ht]; exact hs
      · rw [fire_last rnd hi hs (by omega)]
        refine ⟨hw.orig, hw.pos, hw.held, ?_, Nat.zero_le 1⟩
        intro t ht; cases ht
    · rw [fire_idle h rnd (by
        rw [hi]; intro t ht; rw [List.mem_singleton.mp ht]; exact hk)]
      exact hw

theorem step_inv {el : JSString} {w : Widget} (hw : Inv el w) (e : Event) :
    Inv el (step w e) := by
  cases e with
  | scramble => exact scramble_inv hw
  | reset => exact reset_inv hw
  | tick h rnd => exact fire_inv hw h rnd

theorem run_inv {el : JSString} (es : List Event) {w : Widget} (hw : Inv el w) :
    Inv el (run w es) := by
  induction es generalizing w with
  | nil => exact hw
  | cons e es ih => exact ih (step_inv hw e)

theorem reachable_inv (el : JSString) (es : List Event) :
    Inv el (run (ScrambleText.constructor el) es) :=
  run_inv es (constructor_inv el)

/-! ### The reveal, tick by tick -/

theorem ticks_running {s : Widget} {h : Nat} (rnds : Nat → Nat → Draw)
    (hi : s.intervals = [{ id := h, i := 0 }]) :
    ∀ k, k ≤ s.originalText.length →
      ticks h rnds k s = { s with
        textContent := textAfter s.originalText s.textContent rnds k
        intervals := [{ id := h, i := k }] } := by
  intro k
  induction k with
  | zero =>
    intro _
    simp only [ticks, textAfter]
    rw [← hi]
  | succ k ih =>
    intro hk
    have hk1 : k ≤ s.originalText.length := by omega
    simp only [ticks]
    rw [ih hk1, fire_running (rnds k) rfl (by simpa using hk)]
    rfl

theorem ticks_finished {s : Widget} {h : Nat} (rnds : Nat → Nat → Draw)
    (hi : s.intervals = [{ id := h, i := 0 }]) (hs : s.scrambleInterval = some h) :
    ticks h rnds (s.originalText.length + 1) s =
      { s with textContent := s.originalText, intervals := [] } := by
  simp only [ticks]
  rw [ticks_running rnds hi _ (le_refl _)]
  exact fire_last (rnds _) rfl hs (le_refl _)

theorem run_tickEvents_idle {w : Widget} (hnil : w.intervals = [])
    (ts : List (Nat × (Nat → Draw))) : run w (tickEvents ts) = w := by
  induction ts with
  | nil => rfl
  | cons t ts ih =>
    have hstep : step w (Event.tick t.1 t.2) = w :=
      fire_idle t.1 t.2 (by rw [hnil]; intro u hu; cases hu)
    simp only [tickEvents, List.map_cons, run, List.foldl_cons, hstep]
    exact ih

theorem randomIndex_zero : randomIndex Draw.zero = 0 := by
  simp [randomIndex, Draw.zero]

/-- One tick into the reveal of the one-letter text `a`, all draws `0`: the page
shows `!`. -/
theorem one_tick_of_a :
    scrambleThenTicks (ScrambleText.constructor [97]) (fun _ _ => Draw.zero) 1 =
      { originalText := [97], textContent := [33], scrambleInterval := some 1,
        intervals := [{ id := 1, i := 1 }], nextId := 2 } := by
  have h := ticks_running (s := scramble (ScrambleText.constructor [97])) (h := 1)
    (fun _ _ => Draw.zero) rfl 1 (le_refl 1)
  simp only [scrambleThenTicks]
  rw [show (ScrambleText.constructor [97]).nextId = 1 from rfl, h]
  simp [scramble, ScrambleText.constructor, textAfter, scrambledText_eq, tickUnit,
    randomIndex_zero, chars]

/-! ### ScrambleText: the claims -/

/-- C1 (as stated, refuted): one tick into the reveal of the one-letter text `a`
the page shows `!`, so the first `K = 1` characters do not equal the original
ones. -/
theorem scramble_first_tick_hides_first_char :
    (scrambleThenTicks (ScrambleText.constructor [97]) (fun _ _ => Draw.zero) 1).textContent
        = [33] ∧
      ((scrambleThenTicks (ScrambleText.constructor [97])
        (fun _ _ => Draw.zero) 1).textContent).take 1 ≠ List.take 1 [97] := by
  rw [one_tick_of_a]
  exact ⟨rfl, by decide⟩

/-- C1 (amended): in every reachable state, for a text of length `N` and every
`K` with `1 ≤ K ≤ N`, after `scramble()` and `K` ticks of its interval the
element's text has length `N`, its `K - 1` leading units are those of the
original text, and every unit from position `K - 1` on is a unit of the
replacement alphabet `this.chars`. -/
theorem scramble_kth_tick (el : JSString) (es : List Event) (rnds : Nat → Nat → Draw)
    (K : Nat) (h1 : 1 ≤ K) (hN : K ≤ el.length) :
    (scrambleThenTicks (run (ScrambleText.constructor el) es) rnds K).textContent.length
        = el.length ∧
      (scrambleThenTicks (run (ScrambleText.constructor el) es) rnds K).textContent.take (K - 1)
        = el.take (K - 1) ∧
      ∀ j, K - 1 ≤ j → j < el.length → ∃ c ∈ chars,
        (scrambleThenTicks (run (ScrambleText.constructor el) es) rnds K).textContent[j]?
          = some c := by
  have hw := reachable_inv el es
  have ho : (scramble (run (ScrambleText.constructor el) es)).originalText = el := hw.orig
  have ht := ticks_running rnds (scramble_intervals hw) K (by rw [ho]; exact hN)
  obtain ⟨k, rfl⟩ : ∃ k, K = k + 1 := ⟨K - 1, by omega⟩
  simp only [scrambleThenTicks, ht, ho, textAfter, Nat.add_sub_cancel]
  refine ⟨scrambledText_length _ _ _, scrambledText_take _ _ _, ?_⟩
  intro j hkj hj
  rw [scrambledText_getElem?, List.getElem?_eq_getElem hj]
  exact ⟨_, tickUnit_mem_chars k (rnds k) j _ hkj, rfl⟩

/-- C1 (amended), at the text `ab` and `K = 2`. -/
theorem scramble_kth_tick_witness :
    (scrambleThenTicks (run (ScrambleText.constructor [97, 98]) []) (fun _ _ => Draw.zero)
        2).textContent.length = [97, 98].length ∧
      (scrambleThenTicks (run (ScrambleText.constructor [97, 98]) []) (fun _ _ => Draw.zero)
        2).textContent.take (2 - 1) = [97, 98].take (2 - 1) ∧
      ∀ j, 2 - 1 ≤ j → j < [97, 98].length → ∃ c ∈ chars,
        (scrambleThenTicks (run (ScrambleText.constructor [97, 98]) [])
          (fun _ _ => Draw.zero) 2).textContent[j]? = some c :=
  scramble_kth_tick [97, 98] [] (fun _ _ => Draw.zero) 2 (by decide) (by decide)

/-- C2 (as stated, refuted): after `N = 1` ticks of the reveal of the one-letter
text `a` the page does not show `a`, and the interval is still scheduled. -/
theorem scramble_not_done_after_N_ticks :
    (scrambleThenTicks (ScrambleText.constructor [97]) (fun _ _ => Draw.zero)
        ([97] : JSString).length).textContent ≠ [97] ∧
      (scrambleThenTicks (ScrambleText.constructor [97]) (fun _ _ => Draw.zero)
        ([97] : JSString).length).intervals ≠ [] := by
  rw [show ([97] : JSString).length = 1 from rfl, one_tick_of_a]
  exact ⟨by decide, by decide⟩

/-- C2 (amended): in every reachable state, for a text of length `N`, the
interval started by `scramble()` is still scheduled after each of its first `N`
ticks; after `N + 1` ticks the element's text equals the original text and no
interval is scheduled, so no further tick changes anything. -/
theorem scramble_self_terminates (el : JSString) (es : List Event)
    (rnds : Nat → Nat → Draw) :
    (∀ k, k ≤ el.length →
      (scrambleThenTicks (run (ScrambleText.constructor el) es) rnds k).intervals =
        [{ id := (run (ScrambleText.constructor el) es).nextId, i := k }]) ∧
    (scrambleThenTicks (run (ScrambleText.constructor el) es) rnds
      (el.length + 1)).textContent = el ∧
    (scrambleThenTicks (run (ScrambleText.constructor el) es) rnds
      (el.length + 1)).intervals = [] ∧
    ∀ ts, run (scrambleThenTicks (run (ScrambleText.constructor el) es) rnds
      (el.length + 1)) (tickEvents ts) =
        scrambleThenTicks (run (ScrambleText.constructor el) es) rnds (el.length + 1) := by
  have hw := reachable_inv el es
  have ho : (scramble (run (ScrambleText.constructor el) es)).originalText = el := hw.orig
  have hfin := ticks_finished rnds (scramble_intervals hw) rfl
  rw [ho] at hfin
  refine ⟨?_, ?_, ?_, ?_⟩
  · intro k hk
    simp only [scrambleThenTicks]
    rw [ticks_running rnds (scramble_intervals hw) k (by rw [ho]; exact hk)]
  · simp only [scrambleThenTicks, hfin]
  · simp only [scrambleThenTicks, hfin]
  · intro ts
    exact run_tickEvents_idle (by simp only [scrambleThenTicks, hfin]) ts

/-- C3: in every reachable state, right after `reset()` the element's text is the
text captured at construction and no interval is scheduled, and no sequence of
later ticks changes the state. -/
theorem reset_restores_original (el : JSString) (es : List Event) :
    (reset (run (ScrambleText.constructor el) es)).textContent = el ∧
    (reset (run (ScrambleText.constructor el) es)).intervals = [] ∧
    ∀ ts, run (reset (run (ScrambleText.constructor el) es)) (tickEvents ts) =
      reset (run (ScrambleText.constructor el) es) := by
  have hw := reachable_inv el es
  have hnil : (reset (run (ScrambleText.constructor el) es)).intervals = [] := hw.clear_held
  exact ⟨hw.orig, hnil, run_tickEvents_idle hnil⟩

/-- C4: after every sequence of `scramble()`, `reset()` and tick events at most
one interval is scheduled, it is the one held in `this.scrambleInterval`, and
after a further `scramble()` the only scheduled interval is the new one. -/
theorem at_most_one_interval (el : JSString) (es : List Event) :
    (run (ScrambleText.constructor el) es).intervals.length ≤ 1 ∧
    (∀ t ∈ (run (ScrambleText.constructor el) es).intervals,
      (run (ScrambleText.constructor el) es).scrambleInterval = some t.id) ∧
    (scramble (run (ScrambleText.constructor el) es)).intervals =
      [{ id := (run (ScrambleText.constructor el) es).nextId, i := 0 }] := by
  have hw := reachable_inv el es
  exact ⟨hw.atMostOne, hw.owner, scramble_intervals hw⟩

/-! ## Menu, sound toggle and throttle -/

/-! ### Class lists -/

theorem mem_classListToggle (cl : List String) (name : String) (force : Bool) :
    name ∈ classListToggle cl name force ↔ force = true := by
  cases force with
  | true =>
    by_cases h : name ∈ cl <;> simp [classListToggle, h]
  | false => simp [classListToggle]

theorem classListToggle_add_remove (cl : List String) (name : String) (h : name ∉ cl) :
    classListToggle (classListToggle cl name true) name false = cl := by
  have hf : cl.filter (fun c => c != name) = cl := by
    apply List.filter_eq_self.mpr
    intro c hc
    have : c ≠ name := fun e => h (e ▸ hc)
    simpa using this
  simp [classListToggle, h, List.filter_append, hf]

/-! ### Menu toggle: the claim -/

theorem toggleMenu_consistent (m : Menu) : (toggleMenu m).Consistent := by
  refine ⟨?_, ?_, ?_, rfl⟩ <;> exact mem_classListToggle _ _ _

theorem toggleMenu_iterate_isOpen (m : Menu) (n : Nat) :
    (toggleMenu^[n] m).isOpen = (if n % 2 = 1 then !m.isOpen else m.isOpen) := by
  induction n with
  | zero => simp
  | succ n ih =>
    rw [Function.iterate_succ_apply']
    show (!(toggleMenu^[n] m).isOpen) = _
    rw [ih]
    rcases Nat.mod_two_eq_zero_or_one n with h | h
    · have h1 : (n + 1) % 2 = 1 := by omega
      simp [h, h1]
    · have h1 : (n + 1) % 2 = 0 := by omega
      simp [h, h1]

/-- C8: over markup that shows a closed menu, two calls of `toggleMenu` (open,
then close) bring `isOpen`, the three class lists and `aria-expanded` back to
their initial values; and after every number `n` of calls the three classes are
present exactly when `isOpen` is true, `aria-expanded` is the string of `isOpen`,
and `isOpen` is true exactly when `n` is odd. -/
theorem menu_toggle_twice_restores (body menuToggle siteNav : List String)
    (aria : Option String) (h : ClosedMarkup body menuToggle siteNav aria) :
    toggleMenu (toggleMenu (setupMenu body menuToggle siteNav aria)) =
        setupMenu body menuToggle siteNav aria ∧
      ∀ n, (toggleMenu^[n] (setupMenu body menuToggle siteNav aria)).Consistent ∧
        ((toggleMenu^[n] (setupMenu body menuToggle siteNav aria)).isOpen = true ↔
          n % 2 = 1) := by
  obtain ⟨hb, hm, hs, ha⟩ := h
  refine ⟨?_, ?_⟩
  · simp only [toggleMenu, setupMenu, Bool.not_false, Bool.not_true, boolAttr]
    rw [classListToggle_add_remove _ _ hb, classListToggle_add_remove _ _ hm,
      classListToggle_add_remove _ _ hs, ha]
  · intro n
    refine ⟨?_, ?_⟩
    · cases n with
      | zero =>
        simp only [Function.iterate_zero, id_eq, Menu.Consistent, setupMenu, boolAttr]
        simp [hb, hm, hs, ha]
      | succ n =>
        rw [Function.iterate_succ_apply']
        exact toggleMenu_consistent _
    · rw [toggleMenu_iterate_isOpen]
      by_cases hn : n % 2 = 1 <;> simp [hn, setupMenu]

/-- C8, at markup with an unrelated class on each element. -/
theorem menu_toggle_twice_restores_witness :
    toggleMenu (toggleMenu (setupMenu ["home"] ["menu-toggle"] ["site-nav"] (some "false"))) =
        setupMenu ["home"] ["menu-toggle"] ["site-nav"] (some "false") ∧
      ∀ n, (toggleMenu^[n]
          (setupMenu ["home"] ["menu-toggle"] ["site-nav"] (some "false"))).Consistent ∧
        ((toggleMenu^[n]
          (setupMenu ["home"] ["menu-toggle"] ["site-nav"] (some "false"))).isOpen = true ↔
          n % 2 = 1) :=
  menu_toggle_twice_restores ["home"] ["menu-toggle"] ["site-nav"] (some "false")
    (by simp [ClosedMarkup])

/-! ### Sound toggle: the claim -/

/-- C9: for every prior state, one click negates `audio.muted`; afterwards the
class `is-muted` is present exactly when the audio is muted, and `aria-pressed`
is `false` exactly then (it is `true` exactly when the audio is un-muted); two
further clicks bring `audio.muted`, the presence of the class and the attribute
back to their values after the first click. -/
theorem sound_click_consistent (s : Sound) :
    (soundClick s).muted = (!s.muted) ∧
    ("is-muted" ∈ (soundClick s).btnClasses ↔ (soundClick s).muted = true) ∧
    (soundClick s).ariaPressed = some (boolAttr (!(soundClick s).muted)) ∧
    ((soundClick s).ariaPressed = some "false" ↔
      "is-muted" ∈ (soundClick s).btnClasses) ∧
    ((soundClick s).ariaPressed = some "true" ↔ (soundClick s).muted = false) ∧
    (soundClick (soundClick (soundClick s))).muted = (soundClick s).muted ∧
    ("is-muted" ∈ (soundClick (soundClick (soundClick s))).btnClasses ↔
      "is-muted" ∈ (soundClick s).btnClasses) ∧
    (soundClick (soundClick (soundClick s))).ariaPressed = (soundClick s).ariaPressed := by
  have hmem : ∀ t : Sound, "is-muted" ∈ (soundClick t).btnClasses ↔ t.muted = false := by
    intro t
    simp only [soundClick]
    rw [mem_classListToggle]
    cases t.muted <;> simp
  refine ⟨rfl, ?_, ?_, ?_, ?_, ?_, ?_, ?_⟩
  · rw [hmem]; simp [soundClick]
  · simp [soundClick]
  · rw [hmem]; cases hm : s.muted <;> simp [soundClick, boolAttr, hm]
  · cases hm : s.muted <;> simp [soundClick, boolAttr, hm]
  · simp [soundClick]
  · rw [hmem, hmem]; simp [soundClick]
  · simp [soundClick]

/-! ### throttle: the claim -/

theorem throttle_init_ok : Throttle.init.Ok := rfl

theorem throttleStep_ok {α : Type} {s : Throttle} (hs : s.Ok) (e : ThrottleEvent α) :
    (throttleStep s e).1.Ok := by
  unfold Throttle.Ok at hs ⊢
  cases e with
  | call a =>
    cases hb : s.inThrottle <;> simp [throttleStep, hb] at hs ⊢
    · exact hs
    · exact hs
  | expire =>
    cases hb : s.inThrottle <;> simp [throttleStep, hb] at hs ⊢
    · simp [hs, hb]
    · simp [hs]

theorem throttleRun_ok {α : Type} (es : List (ThrottleEvent α)) {s : Throttle} (hs : s.Ok) :
    (throttleRun s es).1.Ok := by
  induction es generalizing s with
  | nil => exact hs
  | cons e es ih => exact ih (throttleStep_ok hs e)

theorem throttleRun_inThrottle {α : Type} (es : List (ThrottleEvent α)) {s : Throttle}
    (hs : s.Ok) :
    (throttleRun s es).1.inThrottle =
      invokedSinceExpiry s.inThrottle (es.zip (throttleRun s es).2) := by
  induction es generalizing s with
  | nil => rfl
  | cons e es ih =>
    simp only [throttleRun, List.zip_cons_cons]
    rw [ih (throttleStep_ok hs e)]
    unfold Throttle.Ok at hs
    cases e with
    | call a =>
      cases hb : s.inThrottle <;> simp [throttleStep, hb, invokedSinceExpiry]
    | expire =>
      cases hb : s.inThrottle
      · by_cases hp : s.pending = 0 <;> simp [throttleStep, hb, hp, invokedSinceExpiry]
      · have hp : s.pending ≠ 0 := by rw [hs, hb]; simp
        simp [throttleStep, hp, invokedSinceExpiry]

theorem throttleRun_only_expiries {α : Type} (es : List (ThrottleEvent α)) {s : Throttle}
    (hb : s.inThrottle = false) (he : ∀ e ∈ es, e.isExpire = true) :
    (throttleRun s es).1.inThrottle = false := by
  induction es generalizing s with
  | nil => exact hb
  | cons e es ih =>
    have he' : ∀ e ∈ es, e.isExpire = true := fun x hx => he x (List.mem_cons_of_mem _ hx)
    cases e with
    | call a =>
      have := he (.call a) (List.mem_cons_self _ _)
      simp [ThrottleEvent.isExpire] at this
    | expire =>
      simp only [throttleRun]
      apply ih _ he'
      by_cases hp : s.pending = 0 <;> simp [throttleStep, hp, hb]

theorem throttleRun_blocked {α : Type} (seg : List (ThrottleEvent α)) {s : Throttle}
    (hb : s.inThrottle = true) (he : ∀ e ∈ seg, e.isExpire = false) :
    invocations (throttleRun s seg).2 = 0 := by
  induction seg generalizing s with
  | nil => rfl
  | cons e seg ih =>
    have he' : ∀ e ∈ seg, e.isExpire = false := fun x hx => he x (List.mem_cons_of_mem _ hx)
    cases e with
    | expire =>
      have := he .expire (List.mem_cons_self _ _)
      simp [ThrottleEvent.isExpire] at this
    | call a =>
      have h1 : throttleStep s (.call a) = (s, none) := by simp [throttleStep, hb]
      simp only [throttleRun, h1, invocations] at ih ⊢
      simpa using ih hb he'

theorem throttleRun_at_most_once {α : Type} (seg : List (ThrottleEvent α)) (s : Throttle)
    (he : ∀ e ∈ seg, e.isExpire = false) :
    invocations (throttleRun s seg).2 ≤ 1 := by
  induction seg generalizing s with
  | nil => exact Nat.zero_le 1
  | cons e seg ih =>
    have he' : ∀ e ∈ seg, e.isExpire = false := fun x hx => he x (List.mem_cons_of_mem _ hx)
    cases e with
    | expire =>
      have := he .expire (List.mem_cons_self _ _)
      simp [ThrottleEvent.isExpire] at this
    | call a =>
      cases hb : s.inThrottle
      · have h1 : throttleStep s (.call a) =
            ({ inThrottle := true, pending := s.pending + 1 }, some a) := by
          simp [throttleStep, hb]
        have h0 := throttleRun_blocked (s := { inThrottle := true, pending := s.pending + 1 })
          seg rfl he'
        simp only [throttleRun, h1, invocations] at h0 ⊢
        simp [h0]
      · have h1 : throttleStep s (.call a) = (s, none) := by simp [throttleStep, hb]
        have := ih s he'
        simp only [throttleRun, h1, invocations] at this ⊢
        simpa using this

theorem throttleRun_output_own_args {α : Type} (es : List (ThrottleEvent α)) (s : Throttle)
    (i : Nat) (b : α) (h : (throttleRun s es).2[i]? = some (some b)) :
    es[i]? = some (.call b) := by
  induction es generalizing s i with
  | nil => simp [throttleRun] at h
  | cons e es ih =>
    cases i with
    | zero =>
      simp only [throttleRun, List.getElem?_cons_zero, Option.some.injEq] at h ⊢
      cases e with
      | expire => by_cases hp : s.pending = 0 <;> simp [throttleStep, hp] at h
      | call a =>
        cases hb : s.inThrottle <;> simp [throttleStep, hb] at h
        rw [h]
    | succ i =>
      simp only [throttleRun, List.getElem?_cons_succ] at h ⊢
      exact ih _ i h

/-- C10: for every sequence of calls and timer expiries of one throttled wrapper,
(1) the next call applies `func` to its own arguments when `inThrottle` is false
and applies nothing otherwise, and `inThrottle` is true exactly when `func` has
been invoked since the last expiry; (2) a call that no call precedes invokes
`func`; (3) over any stretch of events without an expiry `func` is invoked at
most once; (4) a call arriving while `inThrottle` is true leaves the closure as
it was, an expiry invokes nothing, and every invocation carries the arguments of
the call it happens in, so a dropped call is never replayed; (5) at most one
timeout is pending. -/
theorem throttle_invokes_once_per_window {α : Type} (es : List (ThrottleEvent α)) :
    (∀ a : α, (throttleStep (throttleRun Throttle.init es).1 (.call a)).2 =
      if (throttleRun Throttle.init es).1.inThrottle then none else some a) ∧
    ((throttleRun Throttle.init es).1.inThrottle =
      invokedSinceExpiry false (es.zip (throttleRun Throttle.init es).2)) ∧
    (∀ a : α, (∀ e ∈ es, e.isExpire = true) →
      (throttleStep (throttleRun Throttle.init es).1 (.call a)).2 = some a) ∧
    (∀ seg : List (ThrottleEvent α), (∀ e ∈ seg, e.isExpire = false) →
      invocations (throttleRun (throttleRun Throttle.init es).1 seg).2 ≤ 1) ∧
    (∀ a : α, (throttleRun Throttle.init es).1.inThrottle = true →
      throttleStep (throttleRun Throttle.init es).1 (.call a) =
        ((throttleRun Throttle.init es).1, none)) ∧
    ((throttleStep (throttleRun Throttle.init es).1 (.expire : ThrottleEvent α)).2 = none) ∧
    (∀ (i : Nat) (b : α), (throttleRun Throttle.init es).2[i]? = some (some b) →
      es[i]? = some (ThrottleEvent.call b)) ∧
    (throttleRun Throttle.init es).1.pending ≤ 1 := by
  refine ⟨?_, throttleRun_inThrottle es throttle_init_ok, ?_, ?_, ?_, ?_, ?_, ?_⟩
  · intro a
    cases hb : (throttleRun Throttle.init es).1.inThrottle <;> simp [throttleStep, hb]
  · intro a he
    have hb := throttleRun_only_expiries (s := Throttle.init) es rfl he
    simp [throttleStep, hb]
  · intro seg he
    exact throttleRun_at_most_once seg _ he
  · intro a hb
    simp [throttleStep, hb]
  · by_cases hp : (throttleRun (α := α) Throttle.init es).1.pending = 0 <;>
      simp [throttleStep, hp]
  · intro i b h
    exact throttleRun_output_own_args es _ i b h
  · have := throttleRun_ok es throttle_init_ok
    unfold Throttle.Ok at this
    rw [this]
    split <;> omega

/-! ## Pointer, smoothing and dot expansion -/

/-! ### Pointer normalisation: the claim -/

/-- C6: in exact arithmetic, for a window with `innerWidth > 0` and
`innerHeight > 0` and a pointer with `0 ≤ clientX ≤ innerWidth` and
`0 ≤ clientY ≤ innerHeight`, both stored coordinates lie in `[-1, 1]`; `y` is `1`
at `clientY = 0`, `-1` at `clientY = innerHeight` and strictly decreasing in
`clientY`; `x` is `-1` at `clientX = 0`, `1` at `clientX = innerWidth` and
strictly increasing in `clientX`. -/
theorem normalized_mouse_in_range (clientX clientY innerWidth innerHeight : ℚ)
    (hW : 0 < innerWidth) (hH : 0 < innerHeight)
    (hx0 : 0 ≤ clientX) (hx1 : clientX ≤ innerWidth)
    (hy0 : 0 ≤ clientY) (hy1 : clientY ≤ innerHeight) :
    (-1 ≤ (onMouseMove clientX clientY innerWidth innerHeight).normalizedX ∧
      (onMouseMove clientX clientY innerWidth innerHeight).normalizedX ≤ 1) ∧
    (-1 ≤ (onMouseMove clientX clientY innerWidth innerHeight).normalizedY ∧
      (onMouseMove clientX clientY innerWidth innerHeight).normalizedY ≤ 1) ∧
    (onMouseMove clientX 0 innerWidth innerHeight).normalizedY = 1 ∧
    (onMouseMove clientX innerHeight innerWidth innerHeight).normalizedY = -1 ∧
    (∀ y₁ y₂ : ℚ, y₁ < y₂ →
      (onMouseMove clientX y₂ innerWidth innerHeight).normalizedY <
        (onMouseMove clientX y₁ innerWidth innerHeight).normalizedY) ∧
    (onMouseMove 0 clientY innerWidth innerHeight).normalizedX = -1 ∧
    (onMouseMove innerWidth clientY innerWidth innerHeight).normalizedX = 1 ∧
    (∀ x₁ x₂ : ℚ, x₁ < x₂ →
      (onMouseMove x₁ clientY innerWidth innerHeight).normalizedX <
        (onMouseMove x₂ clientY innerWidth innerHeight).normalizedX) := by
  have hxd0 : 0 ≤ clientX / innerWidth := div_nonneg hx0 hW.le
  have hxd1 : clientX / innerWidth ≤ 1 := (div_le_one hW).mpr hx1
  have hyd0 : 0 ≤ clientY / innerHeight := div_nonneg hy0 hH.le
  have hyd1 : clientY / innerHeight ≤ 1 := (div_le_one hH).mpr hy1
  simp only [onMouseMove]
  refine ⟨⟨by linarith, by linarith⟩, ⟨by linarith, by linarith⟩, by simp, ?_, ?_, by simp,
    ?_, ?_⟩
  · rw [div_self hH.ne']; norm_num
  · intro y₁ y₂ h
    have := div_lt_div_of_pos_right h hH
    linarith
  · rw [div_self hW.ne']; norm_num
  · intro x₁ x₂ h
    have := div_lt_div_of_pos_right h hW
    linarith

/-- C6, at a 1920 by 1080 window with the pointer at (960, 270). -/
theorem normalized_mouse_in_range_witness :
    (onMouseMove 960 270 1920 1080).normalizedX = 0 ∧
      (onMouseMove 960 270 1920 1080).normalizedY = 1 / 2 ∧
      -1 ≤ (onMouseMove 960 270 1920 1080).normalizedY ∧
      (onMouseMove 960 270 1920 1080).normalizedY ≤ 1 :=
  ⟨by norm_num [onMouseMove], by norm_num [onMouseMove],
    (normalized_mouse_in_range 960 270 1920 1080 (by norm_num) (by norm_num) (by norm_num)
      (by norm_num) (by norm_num) (by norm_num)).2.1⟩

/-! ### Mouse smoothing: the claim -/

theorem frames_uMouse (t : Vector2) (f : Frame) (times : List ℚ) :
    t.x - (frames t f times).uMouse.x = (0.95 : ℚ) ^ times.length * (t.x - f.uMouse.x) ∧
    t.y - (frames t f times).uMouse.y = (0.95 : ℚ) ^ times.length * (t.y - f.uMouse.y) := by
  induction times generalizing f with
  | nil => simp [frames]
  | cons e es ih =>
    obtain ⟨hx, hy⟩ := ih (animate t e f)
    simp only [frames, List.length_cons, pow_succ]
    rw [hx, hy]
    simp only [animate, Vector2.lerp]
    constructor <;> ring

/-- C7: in exact arithmetic, with `normalizedMouse` held at `t`, a frame replaces
the smoothed vector `u` by `u + 0.05 * (t - u)`; after any number `n` of frames
each component of the remaining offset `t - uMouse` is `0.95 ^ n`
times the initial one; hence it never changes sign (no overshoot), and a further
frame never increases the distance to `t`, component by component and in the
squared Euclidean distance. -/
theorem smoothed_mouse_decays (t : Vector2) (f : Frame) (times : List ℚ) :
    t.x - (frames t f times).uMouse.x = (0.95 : ℚ) ^ times.length * (t.x - f.uMouse.x) ∧
    t.y - (frames t f times).uMouse.y = (0.95 : ℚ) ^ times.length * (t.y - f.uMouse.y) ∧
    0 ≤ (t.x - (frames t f times).uMouse.x) * (t.x - f.uMouse.x) ∧
    0 ≤ (t.y - (frames t f times).uMouse.y) * (t.y - f.uMouse.y) ∧
    |t.x - (frames t f times).uMouse.x| ≤ |t.x - f.uMouse.x| ∧
    |t.y - (frames t f times).uMouse.y| ≤ |t.y - f.uMouse.y| ∧
    (∀ e : ℚ,
      (animate t e (frames t f times)).uMouse.x =
        (frames t f times).uMouse.x + 0.05 * (t.x - (frames t f times).uMouse.x) ∧
      (animate t e (frames t f times)).uMouse.y =
        (frames t f times).uMouse.y + 0.05 * (t.y - (frames t f times).uMouse.y) ∧
      |t.x - (animate t e (frames t f times)).uMouse.x| ≤ |t.x - (frames t f times).uMouse.x| ∧
      |t.y - (animate t e (frames t f times)).uMouse.y| ≤ |t.y - (frames t f times).uMouse.y| ∧
      (t.x - (animate t e (frames t f times)).uMouse.x) ^ 2 +
          (t.y - (animate t e (frames t f times)).uMouse.y) ^ 2 ≤
        (t.x - (frames t f times).uMouse.x) ^ 2 + (t.y - (frames t f times).uMouse.y) ^ 2) := by
  obtain ⟨hx, hy⟩ := frames_uMouse t f times
  have hc0 : (0 : ℚ) ≤ (0.95 : ℚ) ^ times.length := pow_nonneg (by norm_num) _
  have hc1 : (0.95 : ℚ) ^ times.length ≤ 1 := pow_le_one₀ (by norm_num) (by norm_num)
  refine ⟨hx, hy, ?_, ?_, ?_, ?_, ?_⟩
  · rw [hx]; nlinarith [mul_self_nonneg (t.x - f.uMouse.x)]
  · rw [hy]; nlinarith [mul_self_nonneg (t.y - f.uMouse.y)]
  · rw [hx, abs_mul, abs_of_nonneg hc0]
    exact mul_le_of_le_one_left (abs_nonneg _) hc1
  · rw [hy, abs_mul, abs_of_nonneg hc0]
    exact mul_le_of_le_one_left (abs_nonneg _) hc1
  · intro e
    have ex : t.x - (animate t e (frames t f times)).uMouse.x =
        0.95 * (t.x - (frames t f times).uMouse.x) := by
      simp only [animate, Vector2.lerp]; ring
    have ey : t.y - (animate t e (frames t f times)).uMouse.y =
        0.95 * (t.y - (frames t f times).uMouse.y) := by
      simp only [animate, Vector2.lerp]; ring
    rw [ex, ey]
    refine ⟨by simp only [animate, Vector2.lerp]; ring,
      by simp only [animate, Vector2.lerp]; ring, ?_, ?_, ?_⟩
    · rw [abs_mul, abs_of_nonneg (by norm_num : (0 : ℚ) ≤ 0.95)]
      exact mul_le_of_le_one_left (abs_nonneg _) (by norm_num)
    · rw [abs_mul, abs_of_nonneg (by norm_num : (0 : ℚ) ≤ 0.95)]
      exact mul_le_of_le_one_left (abs_nonneg _) (by norm_num)
    · nlinarith [sq_nonneg (t.x - (frames t f times).uMouse.x),
        sq_nonneg (t.y - (frames t f times).uMouse.y)]

/-! ### Instanced-dot expansion: the claim -/

theorem foldl_set_below {α β : Type} (g : α → β) (l : List α) (k : Nat) (m : List β)
    (j : Nat) (hj : j < k) :
    ((l.enumFrom k).foldl (fun m ip => m.set ip.1 (g ip.2)) m)[j]? = m[j]? := by
  induction l generalizing k m with
  | nil => rfl
  | cons a l ih =>
    simp only [List.enumFrom_cons, List.foldl_cons]
    rw [ih (k + 1) _ (by omega), List.getElem?_set_ne (by omega)]

theorem foldl_set_written {α β : Type} (g : α → β) (l : List α) (k : Nat) (m : List β)
    (hm : m.length = k + l.length) (j : Nat) (x : α) (hx : l[j]? = some x) :
    ((l.enumFrom k).foldl (fun m ip => m.set ip.1 (g ip.2)) m)[k + j]? = some (g x) := by
  induction l generalizing k m j with
  | nil => simp at hx
  | cons a l ih =>
    simp only [List.enumFrom_cons, List.foldl_cons]
    have hlen : (m.set k (g a)).length = k + 1 + l.length := by
      rw [List.length_set, hm, List.length_cons]; omega
    cases j with
    | zero =>
      simp only [List.getElem?_cons_zero, Option.some.injEq] at hx
      subst hx
      simp only [Nat.add_zero]
      rw [foldl_set_below g l (k + 1) _ k (by omega),
        List.getElem?_set_self (by rw [hm, List.length_cons]; omega)]
    | succ j =>
      simp only [List.getElem?_cons_succ] at hx
      have := ih (k + 1) _ hlen j hx
      rw [show k + (j + 1) = k + 1 + j by omega]
      exact this

theorem updateDotPositions_initial {K : Type} [LinearOrderedField K] (sqrt : K → K)
    (positions : List (Vector3 K)) (ps : List K) :
    (ps.foldl (updateDotPositions sqrt) (createCore positions)).initialDotPositions
        = positions ∧
      (ps.foldl (updateDotPositions sqrt) (createCore positions)).instancePositions.length
        = positions.length := by
  have key : ∀ d : Dots K, d.initialDotPositions = positions →
      d.instancePositions.length = positions.length →
      (ps.foldl (updateDotPositions sqrt) d).initialDotPositions = positions ∧
      (ps.foldl (updateDotPositions sqrt) d).instancePositions.length = positions.length := by
    induction ps with
    | nil => intro d h1 h2; exact ⟨h1, h2⟩
    | cons p ps ih =>
      intro d h1 h2
      simp only [List.foldl_cons]
      apply ih
      · exact h1
      · simp only [updateDotPositions]
        have hlen : ∀ (l : List (ℕ × Vector3 K)) (m : List (Vector3 K)),
            (l.foldl (fun m ip => m.set ip.1 (newPos sqrt ip.2 p)) m).length = m.length := by
          intro l
          induction l with
          | nil => intro m; rfl
          | cons a l ihl => intro m; simp only [List.foldl_cons]; rw [ihl, List.length_set]
        rw [hlen, h2]
  exact key _ rfl (by simp [createCore])

theorem updateDotPositions_written {K : Type} [LinearOrderedField K] (sqrt : K → K)
    (d : Dots K) (hlen : d.instancePositions.length = d.initialDotPositions.length)
    (p : K) (i : Nat) (r : Vector3 K) (hr : d.initialDotPositions[i]? = some r) :
    (updateDotPositions sqrt d p).instancePositions[i]? = some (newPos sqrt r p) := by
  simp only [updateDotPositions, List.enum]
  have := foldl_set_written (fun pos => newPos sqrt pos p) d.initialDotPositions 0
    d.instancePositions (by rw [hlen]; omega) i r hr
  simpa using this

theorem Vector3.lengthSq_pos {K : Type} [LinearOrderedField K] (r : Vector3 K)
    (hr : r ≠ { x := 0, y := 0, z := 0 }) : 0 < r.lengthSq := by
  have h0 : 0 ≤ r.lengthSq := by
    unfold Vector3.lengthSq
    nlinarith [mul_self_nonneg r.x, mul_self_nonneg r.y, mul_self_nonneg r.z]
  rcases h0.lt_or_eq with h | h
  · exact h
  · exfalso
    apply hr
    unfold Vector3.lengthSq at h
    have hx : r.x = 0 := by
      have : r.x * r.x = 0 := by
        nlinarith [mul_self_nonneg r.x, mul_self_nonneg r.y, mul_self_nonneg r.z]
      exact mul_self_eq_zero.mp this
    have hy : r.y = 0 := by
      have : r.y * r.y = 0 := by
        nlinarith [mul_self_nonneg r.x, mul_self_nonneg r.y, mul_self_nonneg r.z]
      exact mul_self_eq_zero.mp this
    have hz : r.z = 0 := by
      have : r.z * r.z = 0 := by
        nlinarith [mul_self_nonneg r.x, mul_self_nonneg r.y, mul_self_nonneg r.z]
      exact mul_self_eq_zero.mp this
    obtain ⟨x, y, z⟩ := r
    simp only at hx hy hz
    subst hx hy hz
    rfl

/-- The displacement of `newPos` from the rest position, where `sqrt` is exact. -/
theorem newPos_displacement {K : Type} [LinearOrderedField K] (sqrt : K → K)
    (r : Vector3 K) (p : K) (hr : r ≠ { x := 0, y := 0, z := 0 })
    (h0 : 0 ≤ sqrt r.lengthSq) (hs : sqrt r.lengthSq * sqrt r.lengthSq = r.lengthSq) :
    0 < sqrt r.lengthSq ∧
    (newPos sqrt r p).sub r = r.multiplyScalar (p * maxExpansion K / sqrt r.lengthSq) ∧
    ((newPos sqrt r p).sub r).lengthSq = (p * maxExpansion K) * (p * maxExpansion K) := by
  have hpos := r.lengthSq_pos hr
  have hne : sqrt r.lengthSq ≠ 0 := by
    intro h; rw [h] at hs; simp at hs; exact hpos.ne hs
  have hlt : 0 < sqrt r.lengthSq := lt_of_le_of_ne h0 (Ne.symm hne)
  have hd : (newPos sqrt r p).sub r = r.multiplyScalar (p * maxExpansion K / sqrt r.lengthSq) := by
    simp only [newPos, Vector3.normalize, Vector3.divideScalar, Vector3.length, hne, if_false,
      Vector3.multiplyScalar, Vector3.add, Vector3.sub, Vector3.mk.injEq]
    refine ⟨?_, ?_, ?_⟩ <;> (field_simp; ring)
  refine ⟨hlt, hd, ?_⟩
  rw [hd]
  simp only [Vector3.multiplyScalar]
  have : ∀ c : K, (Vector3.mk (r.x * c) (r.y * c) (r.z * c)).lengthSq = r.lengthSq * (c * c) := by
    intro c; simp only [Vector3.lengthSq]; ring
  rw [this]
  generalize sqrt r.lengthSq = s at hs hne
  rw [← hs]
  field_simp

/-- C5: in exact arithmetic, after any history of updates, `updateDotPositions(p)`
writes into instance `i` the position `r + (p * 1.5) * normalize(r)` of its rest
position `r`.  At `p = 0` this is `r`.  For `r ≠ 0`, wherever the square root of
the squared length of `r` is exact, the displacement is `r` scaled by the
positive factor `p * 1.5 / |r|` and its squared length is `(p * 1.5)²`, so at
`p = 1` the instance sits `1.5` away from `r` along `r`.  The offset `p * 1.5` is
non-decreasing in `p` and two offsets differ by `1.5` times the difference of
their progress values (so the offset is continuous).  The rest positions are
the ones captured at creation. -/
theorem dot_expansion_offset {K : Type} [LinearOrderedField K] (sqrt : K → K)
    (positions : List (Vector3 K)) (ps : List K) (p : K) (i : Nat) (r : Vector3 K)
    (hr : positions[i]? = some r) :
    (updateDotPositions sqrt (ps.foldl (updateDotPositions sqrt) (createCore positions))
        p).instancePositions[i]? =
      some (r.add ((r.normalize sqrt).multiplyScalar (p * maxExpansion K))) ∧
    (updateDotPositions sqrt (ps.foldl (updateDotPositions sqrt) (createCore positions))
        0).instancePositions[i]? = some r ∧
    (r ≠ { x := 0, y := 0, z := 0 } → 0 ≤ sqrt r.lengthSq →
      sqrt r.lengthSq * sqrt r.lengthSq = r.lengthSq →
      ∃ q, (updateDotPositions sqrt (ps.foldl (updateDotPositions sqrt) (createCore positions))
          p).instancePositions[i]? = some q ∧
        0 < sqrt r.lengthSq ∧
        q.sub r = r.multiplyScalar (p * maxExpansion K / sqrt r.lengthSq) ∧
        (q.sub r).lengthSq = (p * maxExpansion K) * (p * maxExpansion K)) ∧
    (r ≠ { x := 0, y := 0, z := 0 } → 0 ≤ sqrt r.lengthSq →
      sqrt r.lengthSq * sqrt r.lengthSq = r.lengthSq →
      ∃ q, (updateDotPositions sqrt (ps.foldl (updateDotPositions sqrt) (createCore positions))
          1).instancePositions[i]? = some q ∧
        q.sub r = r.multiplyScalar (maxExpansion K / sqrt r.lengthSq) ∧
        0 < maxExpansion K / sqrt r.lengthSq ∧
        (q.sub r).lengthSq = maxExpansion K * maxExpansion K) ∧
    (∀ p₁ p₂ : K, p₁ ≤ p₂ → p₁ * maxExpansion K ≤ p₂ * maxExpansion K) ∧
    (∀ p₁ p₂ : K, |p₁ * maxExpansion K - p₂ * maxExpansion K| = maxExpansion K * |p₁ - p₂|) ∧
    (updateDotPositions sqrt (ps.foldl (updateDotPositions sqrt) (createCore positions))
        p).initialDotPositions = positions := by
  obtain ⟨hinit, hlen⟩ := updateDotPositions_initial sqrt positions ps
  have hM : (0 : K) < maxExpansion K := by unfold maxExpansion; norm_num
  have hw : ∀ p' : K, (updateDotPositions sqrt
      (ps.foldl (updateDotPositions sqrt) (createCore positions)) p').instancePositions[i]? =
      some (newPos sqrt r p') := fun p' =>
    updateDotPositions_written sqrt _ (by rw [hlen, hinit]) p' i r (by rw [hinit]; exact hr)
  refine ⟨hw p, ?_, ?_, ?_, ?_, ?_, hinit⟩
  · rw [hw 0]
    simp [newPos, Vector3.multiplyScalar, Vector3.add]
  · intro hne h0 hs
    obtain ⟨hlt, hd, hl⟩ := newPos_displacement sqrt r p hne h0 hs
    exact ⟨_, hw p, hlt, hd, hl⟩
  · intro hne h0 hs
    obtain ⟨hlt, hd, hl⟩ := newPos_displacement sqrt r 1 hne h0 hs
    rw [one_mul] at hd hl
    exact ⟨_, hw 1, hd, div_pos hM hlt, hl⟩
  · intro p₁ p₂ h
    exact mul_le_mul_of_nonneg_right h hM.le
  · intro p₁ p₂
    rw [← sub_mul, abs_mul, abs_of_pos hM, mul_comm]

/-- C5, at the single rest position `(3, 4, 0)` and progress `1`: the instance is
written at `(3.9, 5.2, 0)`. -/
theorem dot_expansion_offset_witness :
    (updateDotPositions sqrtAt25 (createCore [{ x := 3, y := 4, z := 0 }])
        1).instancePositions[0]? = some { x := 39 / 10, y := 26 / 5, z := 0 } := by
  refine Eq.trans (dot_expansion_offset sqrtAt25 [{ x := 3, y := 4, z := 0 }] [] 1 0
    { x := 3, y := 4, z := 0 } rfl).1 ?_
  norm_num [Vector3.add, Vector3.normalize, Vector3.divideScalar, Vector3.multiplyScalar,
    Vector3.length, Vector3.lengthSq, sqrtAt25, maxExpansion]

end Kodovers
